import Mathlib

/-!
Verification of the Billdozer invoice-parsing engine.

The Python sources are shallowly embedded: page text is a `List Char`,
a tokenized page is a `List (List Char)`, regular-expression searches are
hand-compiled scanners equivalent to the patterns in the sources, and
Python list indexing (which can raise `IndexError`) is modelled by
`List.get?` inside an `Option` monad, so that `isSome` states
"never raises".
-/

set_option autoImplicit false

namespace Billdozer

/-! ## Character and line primitives -/

def isDigitC (c : Char) : Bool := '0' ≤ c && c ≤ '9'

def isUpperC (c : Char) : Bool := 'A' ≤ c && c ≤ 'Z'

def isLowerC (c : Char) : Bool := 'a' ≤ c && c ≤ 'z'

def isAlnumC (c : Char) : Bool := isDigitC c || isUpperC c || isLowerC c

/-- Word character for the regex metacharacter `\b`: `[A-Za-z0-9_]`. -/
def isWordC (c : Char) : Bool := isAlnumC c || c == '_'

/-- Whitespace, as stripped by Python `str.strip` and matched by regex `\s`. -/
def isSpaceC (c : Char) : Bool :=
  c == ' ' || c == '\t' || c == '\n' || c == '\r' || c == '\x0b' || c == '\x0c'

def toLowerC (c : Char) : Char := if isUpperC c then Char.ofNat (c.toNat + 32) else c

def toUpperC (c : Char) : Char := if isLowerC c then Char.ofNat (c.toNat - 32) else c

def lowerL (cs : List Char) : List Char := cs.map toLowerC

def upperL (cs : List Char) : List Char := cs.map toUpperC

/-- Python `str.strip()`. -/
def stripChars (cs : List Char) : List Char :=
  ((cs.dropWhile isSpaceC).reverse.dropWhile isSpaceC).reverse

/-- Split on a separator character (Python `s.split(sep)`). -/
def splitOnCharL (sep : Char) : List Char → List (List Char)
  | [] => [[]]
  | c :: rest =>
    let r := splitOnCharL sep rest
    if c == sep then [] :: r
    else
      match r with
      | [] => [[c]]
      | h :: t => (c :: h) :: t

/-- `[ln.strip() for ln in text.splitlines() if ln.strip()]`. -/
def cleanLines (text : List Char) : List (List Char) :=
  ((splitOnCharL '\n' text).map stripChars).filter (fun l => !l.isEmpty)

def isPrefixC : List Char → List Char → Bool
  | [], _ => true
  | _ :: _, [] => false
  | a :: as, b :: bs => a == b && isPrefixC as bs

/-- Python substring test `pat in s`. -/
def isInfixC (pat : List Char) : List Char → Bool
  | [] => isPrefixC pat []
  | c :: rest => isPrefixC pat (c :: rest) || isInfixC pat rest

def splitDigits (cs : List Char) : List Char × List Char :=
  (cs.takeWhile isDigitC, cs.dropWhile isDigitC)

def natOfDigits (cs : List Char) : Nat :=
  cs.foldl (fun a c => a * 10 + (c.toNat - 48)) 0

/-- Value of a decimal literal such as `12.50`, as a rational (models Python `float`
on the exact decimal strings this code ever feeds it). -/
def ratOfDecimal (cs : List Char) : ℚ :=
  match (splitDigits cs).2 with
  | '.' :: t =>
    (natOfDigits (splitDigits cs).1 : ℚ)
      + (natOfDigits (t.takeWhile isDigitC) : ℚ) / (10 : ℚ) ^ (t.takeWhile isDigitC).length
  | _ => (natOfDigits (splitDigits cs).1 : ℚ)

/-- Python `s.isdigit()` (nonempty, all digits). -/
def isAllDigits (cs : List Char) : Bool := !cs.isEmpty && cs.all isDigitC

def findIdxO {α : Type} (p : α → Bool) : List α → Option Nat
  | [] => none
  | x :: xs => if p x then some 0 else (findIdxO p xs).map (· + 1)

/-- Python list subscript `l[i]` for a nonnegative index: raises (`none`) when out of range. -/
def pyGet {α : Type} (l : List α) (i : Nat) : Option α := l.get? i

/-! ## Knife_River.py : item block extraction (6-slot vendor) -/

/-- `is_truck_code`: `re.fullmatch(r"[A-Z]{3}\d", line)`. -/
def is_truck_code (line : List Char) : Bool :=
  match line with
  | [a, b, c, d] => isUpperC a && isUpperC b && isUpperC c && isDigitC d
  | _ => false

/-- `is_quantity_line`: `re.fullmatch(r"\d+(\.\d+)?\s*TN", line.upper())`. -/
def is_quantity_line (line : List Char) : Bool :=
  let u := upperL line
  let (d, r) := splitDigits u
  if d.isEmpty then false
  else
    match r with
    | '.' :: t =>
      let (f, r2) := splitDigits t
      !f.isEmpty && r2.dropWhile isSpaceC == ['T', 'N']
    | r2 => r2.dropWhile isSpaceC == ['T', 'N']

/-- `is_unit_price`: `re.fullmatch(r"\d+(\.\d{1,4})?", line)`. -/
def is_unit_price (line : List Char) : Bool :=
  let (d, r) := splitDigits line
  if d.isEmpty then false
  else
    match r with
    | [] => true
    | '.' :: t =>
      let (f, r2) := splitDigits t
      r2.isEmpty && 1 ≤ f.length && f.length ≤ 4
    | _ => false

/-- `is_extended_price`: `re.fullmatch(r"\d+(\.\d{2})", line)`. -/
def is_extended_price (line : List Char) : Bool :=
  let (d, r) := splitDigits line
  if d.isEmpty then false
  else
    match r with
    | ['.', a, b] => isDigitC a && isDigitC b
    | _ => false

/-- Noise denylist of `extract_item_blocks`. -/
def krBadWords : List (List Char) :=
  ["item", "description", "special", "instructions",
   "subtotal", "total", "sales", "discount",
   "taxable", "nontaxable", "kr-mtn", "quantity"].map String.data

def krHasBadWord (line : List Char) : Bool :=
  krBadWords.any (fun w => isInfixC w (lowerL line))

/-- Window-start predicate: `line.isdigit() and 5 <= len(line) <= 7`. -/
def krIsTicketStart (line : List Char) : Bool :=
  isAllDigits line && 5 ≤ line.length && line.length ≤ 7

/-- Slot validation performed once the buffer reaches six lines. -/
def krValidBlock (b : List (List Char)) : Bool :=
  match b with
  | [_ticket, _desc, truck, qty, unit, ext] =>
    is_truck_code truck && is_quantity_line qty && is_unit_price unit && is_extended_price ext
  | _ => false

structure KRState where
  blocks : List (List (List Char))
  current : List (List Char)
deriving DecidableEq

/-- One iteration of the `for line in lines` loop of `extract_item_blocks`. -/
def krStep (st : KRState) (line : List Char) : KRState :=
  if krHasBadWord line then st
  else if krIsTicketStart line then { st with current := [line] }
  else
    match st.current with
    | [] => st
    | c :: cs =>
      let cur := (c :: cs) ++ [line]
      if cur.length = 6 then
        if krValidBlock cur then ⟨st.blocks ++ [cur], []⟩
        else ⟨st.blocks, []⟩
      else { st with current := cur }

def krRunBlocks (lines : List (List Char)) : List (List (List Char)) :=
  (lines.foldl krStep ⟨[], []⟩).blocks

/-- `extract_item_blocks` (Knife_River.py). -/
def extract_item_blocks (text : List Char) : List (List (List Char)) :=
  krRunBlocks (cleanLines text)

structure KRItem where
  job_name : Option (List Char)
  ticket : List Char
  description : List Char
  truck : List Char
  quantity_tons : ℚ
  unit_price : ℚ
  extended_price : ℚ
deriving DecidableEq

/-- `qty.replace("TN", "")`: drop every (non-overlapping, left-to-right) occurrence of `TN`. -/
def removeTN : List Char → List Char
  | [] => []
  | 'T' :: 'N' :: rest => removeTN rest
  | c :: rest => c :: removeTN rest

/-- `parse_block` (Knife_River.py). -/
def parse_block (block : List (List Char)) (jobname : Option (List Char)) : Option KRItem :=
  match block with
  | [ticket, desc, truck, qty, unit, ext] =>
    some
      { job_name := jobname
        ticket := ticket
        description := desc
        truck := truck
        quantity_tons := ratOfDecimal (stripChars (removeTN qty))
        unit_price := ratOfDecimal unit
        extended_price := ratOfDecimal ext }
  | _ => none

/-! ## Farwest.py : line-item extraction (5-slot vendor) -/

/-- `re.fullmatch(r"\d+(\.\d+)?", line)`: the Farwest window-start predicate
(bare decimal number), also the unit-price / extended-price validator. -/
def isDecimalFull (cs : List Char) : Bool :=
  let (d, r) := splitDigits cs
  if d.isEmpty then false
  else
    match r with
    | [] => true
    | '.' :: t =>
      let (f, r2) := splitDigits t
      !f.isEmpty && r2.isEmpty
    | _ => false

/-- `re.fullmatch(r"\d{1,2}/\d{1,2}/\d{4}", line)`. -/
def isDateFull4 (cs : List Char) : Bool :=
  let (d1, r1) := splitDigits cs
  match 1 ≤ d1.length && d1.length ≤ 2, r1 with
  | true, '/' :: t1 =>
    let (d2, r2) := splitDigits t1
    match 1 ≤ d2.length && d2.length ≤ 2, r2 with
    | true, '/' :: t2 =>
      let (d3, r3) := splitDigits t2
      d3.length = 4 && r3.isEmpty
    | _, _ => false
  | _, _ => false

structure FWItem where
  job_name : Option (List Char)
  invoice_number : Option (List Char)
  date : List Char
  description : List Char
  quantity_tons : ℚ
  unit_price : ℚ
  extended_price : ℚ
deriving DecidableEq

/-- The `while i < len(lines)` loop of `extract_line_items` (Farwest.py), expressed
on the suffix of lines starting at the current index `i`.  A window is emitted when
the quantity, extended-price and date slots validate; the description slot defaults
to the empty string and the unit-price slot to `0.0` when missing or invalid, and the
index then jumps by 5; otherwise the index advances by 1. -/
def fwLoopF (job inv : Option (List Char)) : Nat → List (List Char) → List FWItem
  | 0, _ => []
  | _, [] => []
  | _, [_] => []
  | _, [_, _] => []
  | fuel + 1, line :: l1 :: l2 :: rest2 =>
    if isDecimalFull line && isDecimalFull l1 && isDateFull4 l2 then
      let unit_price : ℚ :=
        match rest2 with
        | _ :: l4 :: _ => if isDecimalFull l4 then ratOfDecimal l4 else 0
        | _ => 0
      { job_name := job
        invoice_number := inv
        date := l2
        description := rest2.headD []
        quantity_tons := ratOfDecimal line
        unit_price := unit_price
        extended_price := ratOfDecimal l1 } :: fwLoopF job inv fuel (rest2.drop 2)
    else fwLoopF job inv fuel (l1 :: l2 :: rest2)

def fwLoop (job inv : Option (List Char)) (lines : List (List Char)) : List FWItem :=
  fwLoopF job inv lines.length lines

/-- `extract_line_items` (Farwest.py). -/
def extract_line_items (text : List Char) (job inv : Option (List Char)) : List FWItem :=
  fwLoop job inv (cleanLines text)

/-! ## knife_river_parser.py : per-page field extraction -/

/-- `re.fullmatch(r"\d{6,}", ln)`. -/
def isDigits6Plus (cs : List Char) : Bool := 6 ≤ cs.length && cs.all isDigitC

/-- Word-boundary check `\b` for a match that starts with a word character: the
preceding character (if any) must not be a word character. -/
def boundaryOkP : Option Char → Bool
  | none => true
  | some p => !isWordC p

/-- Attempt `\d{2}/\d{2}/\d{2}\b` at the head of `cs` (with the trailing word
boundary); the leading word boundary is checked by the caller. -/
def tryDate2 : List Char → Option (List Char)
  | a :: b :: '/' :: c :: d :: '/' :: e :: f :: rest =>
    if ([a, b, c, d, e, f]).all isDigitC
        && (match rest with | [] => true | x :: _ => !isWordC x) then
      some [a, b, '/', c, d, '/', e, f]
    else none
  | _ => none

/-- `re.search(r"\b\d{2}/\d{2}/\d{2}\b", ln)`: leftmost match, scanning with the
previous character tracked for the leading word boundary. -/
def searchDate2 (prev : Option Char) : List Char → Option (List Char)
  | [] => none
  | c :: rest =>
    match (if boundaryOkP prev then tryDate2 (c :: rest) else none) with
    | some m => some m
    | none => searchDate2 (some c) rest

/-- Maximal run of `(?:,\d{3})*` comma groups: returns (consumed, rest). -/
def takeCommaGroups : List Char → List Char × List Char
  | ',' :: a :: b :: c :: rest =>
    if ([a, b, c]).all isDigitC then
      (',' :: a :: b :: c :: (takeCommaGroups rest).1, (takeCommaGroups rest).2)
    else ([], ',' :: a :: b :: c :: rest)
  | cs => ([], cs)

/-- Attempt `\d{1,3}(?:,\d{3})*\.\d{2}\b` at the head of `cs` (the trailing word
boundary included); returns the match and the remainder.  The `\d{1,3}` must take the
whole leading digit run: a longer run leaves a digit in front of the required
`,` or `.`, and regex backtracking cannot recover. -/
def tryMoneyB (cs : List Char) : Option (List Char × List Char) :=
  if (splitDigits cs).1.isEmpty || 3 < (splitDigits cs).1.length then none
  else
    match (takeCommaGroups (splitDigits cs).2).2 with
    | '.' :: a :: b :: r3 =>
      if isDigitC a && isDigitC b
          && (match r3 with | [] => true | x :: _ => !isWordC x) then
        some ((splitDigits cs).1 ++ (takeCommaGroups (splitDigits cs).2).1
          ++ ['.', a, b], r3)
      else none
    | _ => none

/-- `re.findall(r"\b\d{1,3}(?:,\d{3})*\.\d{2}\b", raw_text)`: all non-overlapping
matches, left to right.  The fuel starts at the text length and every step consumes
at least one character, so it never runs out before the text does. -/
def krMoneyScanF : Nat → Option Char → List Char → List (List Char)
  | 0, _, _ => []
  | _, _, [] => []
  | fuel + 1, prev, c :: rest =>
    match (if boundaryOkP prev then tryMoneyB (c :: rest) else none) with
    | some (m, r) => m :: krMoneyScanF fuel (some (m.getLastD c)) r
    | none => krMoneyScanF fuel (some c) rest

def krMoneyScan (cs : List Char) : List (List Char) := krMoneyScanF cs.length none cs

/-- The total extraction of `_parse_knife_river_page`: last money match on the page,
commas removed; empty when there is none. -/
def krTotal (raw_text : List Char) : List Char :=
  match (krMoneyScan raw_text).getLast? with
  | some m => m.filter (fun c => c ≠ ',')
  | none => []

/-- Date extraction of `_parse_knife_river_page`: first line with a match. -/
def krDate (lines : List (List Char)) : List Char :=
  (lines.findSome? (fun ln => searchDate2 none ln)).getD []

/-- Invoice-number extraction of `_parse_knife_river_page`: first line that is six
or more digits. -/
def krInvoiceNumber (lines : List (List Char)) : List Char :=
  (lines.find? isDigits6Plus).getD []

def krBadJobWords : List (List Char) :=
  ["INVOICE", "TICKET", "PAYABLE COPY", "SUBTOTAL", "TOTAL"].map String.data

/-- `lines[i] if cond else ""`, with the subscript raising when out of range. -/
def guardedGet (lines : List (List Char)) (cond : Bool) (i : Nat) : Option (List Char) :=
  if cond then pyGet lines i else some []

/-- Candidate selection of the jobname rule once the `ORIGINAL` line index is
known: `lines[idx - 1]` (guarded), falling back to `lines[idx - 2]` (guarded),
skipping empty candidates and the fixed denylist. -/
def krJobnameAt (lines : List (List Char)) (idx : Nat) : Option (List Char) :=
  match guardedGet lines (decide (1 ≤ idx)) (idx - 1),
        guardedGet lines (decide (2 ≤ idx)) (idx - 2) with
  | some c1, some c2 =>
    some
      (if !c1.isEmpty && !(krBadJobWords.contains (upperL c1)) then c1
       else if !c2.isEmpty && !(krBadJobWords.contains (upperL c2)) then c2
       else [])
  | _, _ => none

/-- Jobname extraction of `_parse_knife_river_page`: the line (or the one above it)
directly before the first `ORIGINAL` line, skipping a fixed denylist; `none` models an
uncaught `IndexError`, `some []` the empty jobname. -/
def krJobnameM (lines : List (List Char)) : Option (List Char) :=
  match findIdxO (fun ln => upperL ln == "ORIGINAL".data) lines with
  | none => some []
  | some idx => krJobnameAt lines idx

structure InvoicePageRec where
  vendor : List Char
  invoice_number : List Char
  jobname : List Char
  date : List Char
  total : List Char
  raw_text : List Char
  page : Nat
deriving DecidableEq

/-- `_parse_knife_river_page` (knife_river_parser.py); `none` models an uncaught
exception. -/
def parseKnifeRiverPageM (raw_text : List Char) (page_number : Nat) :
    Option InvoicePageRec :=
  match krJobnameM (cleanLines raw_text) with
  | none => none
  | some jobname =>
    some
      { vendor := "Knife River".data
        invoice_number := krInvoiceNumber (cleanLines raw_text)
        jobname := jobname
        date := krDate (cleanLines raw_text)
        total := krTotal raw_text
        raw_text := raw_text
        page := page_number }

/-- The page loop of `parse_invoice` (knife_river_parser.py), starting at 0-based
page index `i`; each record carries page number `i + 1`. -/
def knifeParseGo : Nat → List (List Char) → Option (List InvoicePageRec)
  | _, [] => some []
  | i, t :: ts =>
    match parseKnifeRiverPageM t (i + 1) with
    | none => none
    | some r =>
      match knifeParseGo (i + 1) ts with
      | none => none
      | some rs => some (r :: rs)

/-- `parse_invoice` (knife_river_parser.py) on the per-page texts of a document. -/
def knifeParseInvoice (pages : List (List Char)) : Option (List InvoicePageRec) :=
  knifeParseGo 0 pages

/-! ## missoula_landfill_parser.py -/

/-- Attempt the group of `\$(\d{1,3}(?:,\d{3})*\.\d{2})` just after a `$`;
returns the captured group and the remainder. -/
def tryMoneyDollar (cs : List Char) : Option (List Char × List Char) :=
  if (splitDigits cs).1.isEmpty || 3 < (splitDigits cs).1.length then none
  else
    match (takeCommaGroups (splitDigits cs).2).2 with
    | '.' :: a :: b :: r3 =>
      if isDigitC a && isDigitC b then
        some ((splitDigits cs).1 ++ (takeCommaGroups (splitDigits cs).2).1
          ++ ['.', a, b], r3)
      else none
    | _ => none

/-- `re.findall(r"\$(\d{1,3}(?:,\d{3})*\.\d{2})", raw_text)`. -/
def moMoneyScanF : Nat → List Char → List (List Char)
  | 0, _ => []
  | _, [] => []
  | fuel + 1, c :: rest =>
    if c == '$' then
      match tryMoneyDollar rest with
      | some (m, r) => m :: moMoneyScanF fuel r
      | none => moMoneyScanF fuel rest
    else moMoneyScanF fuel rest

def moMoneyScan (cs : List Char) : List (List Char) := moMoneyScanF cs.length cs

/-- Exact cents value of a matched money string (`float(x.replace(",", ""))` on the
two-decimal strings the scanner produces, scaled by 100). -/
def centsOf (cs : List Char) : Nat := natOfDigits (cs.filter isDigitC)

/-- One comparison step of Python `max(l, key=...)`: a later element replaces the
current best only when strictly greater, so the first maximum is kept. -/
def pickMax {α : Type} (best y : Nat × α) : Nat × α := if best.1 < y.1 then y else best

/-- Python `max(l, key=...)`: the first element attaining the maximum value. -/
def maxByFirstVal {α : Type} : List (Nat × α) → Option (Nat × α)
  | [] => none
  | x :: xs => some (xs.foldl pickMax x)

/-- The greatest value in the list (0 when empty). -/
def maxVal {α : Type} (l : List (Nat × α)) : Nat := (l.map (fun p => p.1)).foldr max 0

/-- `parsed = [(float(x.replace(",", "")), x) for x in money_matches]`. -/
def moParsed (raw_text : List Char) : List (Nat × List Char) :=
  (moMoneyScan raw_text).map (fun x => (centsOf x, x))

/-- `nonzero = [p for p in parsed if p[0] > 0]; ... nonzero if nonzero else parsed`:
the list Python's `max` is taken over.  (When the match list is empty both lists are
empty and the caller returns the empty string.) -/
def chooseNonzero {α : Type} (l : List (Nat × α)) : List (Nat × α) :=
  match l.filter (fun p => 0 < p.1) with
  | [] => l
  | q :: qs => q :: qs

/-- `_extract_missoula_total` (missoula_landfill_parser.py). -/
def extractMissoulaTotal (raw_text : List Char) : List Char :=
  match maxByFirstVal (chooseNonzero (moParsed raw_text)) with
  | some p => p.2.filter (fun c => c ≠ ',')
  | none => []

/-- The `MaxNumericMatch` field rule as the spec words it: collect the monetary
substrings page-wide, parse numerically, and return the comma-free string form of the
greatest value, ties broken by first occurrence in reading order (the first candidate
whose value reaches the maximum), empty string when there are no candidates.
Written independently of `_extract_missoula_total` for the refinement comparison. -/
def specMaxNumericMatch (raw_text : List Char) : List Char :=
  match (moParsed raw_text).find? (fun p => maxVal (moParsed raw_text) ≤ p.1) with
  | some p => p.2.filter (fun c => c ≠ ',')
  | none => []

/-- `re.fullmatch(r"\d{6,7}", ln)`. -/
def isDigits67 (cs : List Char) : Bool :=
  (cs.length = 6 || cs.length = 7) && cs.all isDigitC

/-- Attempt `\d{6,7}\b` at the head (trailing word boundary included): the digit run
must have length exactly 6 or 7, since a longer run leaves a word character after the
greedy (or backtracked) match. -/
def tryDigits67 (cs : List Char) : Option (List Char) :=
  if ((splitDigits cs).1.length = 6 || (splitDigits cs).1.length = 7)
      && (match (splitDigits cs).2 with | [] => true | x :: _ => !isWordC x) then
    some (splitDigits cs).1
  else none

/-- `re.search(r"\b(\d{6,7})\b", raw_text)`: first match. -/
def searchDigits67 (prev : Option Char) : List Char → Option (List Char)
  | [] => none
  | c :: rest =>
    match (if boundaryOkP prev then tryDigits67 (c :: rest) else none) with
    | some m => some m
    | none => searchDigits67 (some c) rest

/-- `range(start, start + count)` as a list of indices. -/
def idxRange (start : Nat) : Nat → List Nat
  | 0 => []
  | n + 1 => start :: idxRange (start + 1) n

/-- `for j in range(i + 1, min(i + 5, len(lines)))` scanning for a 6-7 digit line;
each subscript `lines[j]` raises (`none`) when out of range. -/
def moScanAfterSig (lines : List (List Char)) : List Nat → Option (Option (List Char))
  | [] => some none
  | j :: rest =>
    match pyGet lines j with
    | none => none
    | some ln => if isDigits67 ln then some (some ln) else moScanAfterSig lines rest

/-- Stage 1 of `_extract_missoula_invoice_number`: for every line containing
`SIGNATURE`, look at the next (at most four) lines for a bare 6-7 digit number. -/
def moStage1 (lines : List (List Char)) : List (Nat × List Char) → Option (Option (List Char))
  | [] => some none
  | (i, ln) :: rest =>
    if isInfixC "SIGNATURE".data (upperL ln) then
      match moScanAfterSig lines (idxRange (i + 1) (min (i + 5) lines.length - (i + 1))) with
      | none => none
      | some (some v) => some (some v)
      | some none => moStage1 lines rest
    else moStage1 lines rest

/-- `_extract_missoula_invoice_number` (missoula_landfill_parser.py); `none` models an
uncaught exception. -/
def moInvoiceNumberM (raw_text : List Char) : Option (List Char) :=
  match moStage1 (cleanLines raw_text) (cleanLines raw_text).enum with
  | none => none
  | some (some v) => some v
  | some none =>
    match (cleanLines raw_text).find? isDigits67 with
    | some v => some v
    | none => some ((searchDigits67 none raw_text).getD [])

/-! ## core_main_parser.py -/

/-- Generic leftmost `re.search`: try an anchored attempt at every position, left to
right.  The fuel starts at the text length, so it never runs out before the text. -/
def searchAtF {α : Type} (att : List Char → Option α) : Nat → List Char → Option α
  | 0, _ => none
  | _, [] => none
  | fuel + 1, c :: rest =>
    match att (c :: rest) with
    | some m => some m
    | none => searchAtF att fuel rest

def searchFirst {α : Type} (att : List Char → Option α) (cs : List Char) : Option α :=
  searchAtF att cs.length cs

def dropPrefixC (pat cs : List Char) : Option (List Char) :=
  if isPrefixC pat cs then some (cs.drop pat.length) else none

/-- Case-insensitive literal prefix. -/
def dropPrefixCI (pat cs : List Char) : Option (List Char) :=
  if isPrefixC (lowerL pat) (lowerL (cs.take pat.length)) && pat.length ≤ cs.length then
    some (cs.drop pat.length)
  else none

/-- `\s*\n\s*`: succeeds exactly when the maximal whitespace run at the front contains
a newline, resuming after the whole run (the greedy `\s*` pieces leave no other
possible end position). -/
def wsNewline (cs : List Char) : Option (List Char) :=
  if (cs.takeWhile isSpaceC).contains '\n' then some (cs.dropWhile isSpaceC) else none

/-- `\s*` followed by a required literal character. -/
def wsThen (ch : Char) (cs : List Char) : Option (List Char) :=
  match cs.dropWhile isSpaceC with
  | c :: rest => if c == ch then some rest else none
  | [] => none

/-- The optional `\$?`. -/
def dropDollar : List Char → List Char
  | '$' :: t => t
  | t => t

/-- The capture `([0-9,]+\.[0-9]+)` after the optional dollar sign. -/
def cmCapture (r2 : List Char) : Option (List Char) :=
  if ((dropDollar r2).takeWhile (fun c => isDigitC c || c == ',')).isEmpty then none
  else
    match (dropDollar r2).dropWhile (fun c => isDigitC c || c == ',') with
    | '.' :: t =>
      if (t.takeWhile isDigitC).isEmpty then none
      else
        some ((dropDollar r2).takeWhile (fun c => isDigitC c || c == ',')
          ++ '.' :: t.takeWhile isDigitC)
    | _ => none

/-- Attempt `Total Amount Due\s*\n\s*\$?([0-9,]+\.[0-9]+)` at the head; returns the
captured group. -/
def cmTryTotalAt (cs : List Char) : Option (List Char) :=
  match dropPrefixC "Total Amount Due".data cs with
  | none => none
  | some r1 =>
    match wsNewline r1 with
    | none => none
    | some r2 => cmCapture r2

/-- Total extraction of `parse_invoice` (core_main_parser.py): captured group with
commas removed, empty when the search fails. -/
def cmTotal (text : List Char) : List Char :=
  match searchFirst cmTryTotalAt text with
  | some cap => cap.filter (fun c => c ≠ ',')
  | none => []

/-- Attempt `Invoice\s*#\s*\n\s*([A-Z0-9]+)` (IGNORECASE) at the head. -/
def cmTryInvoiceAt (cs : List Char) : Option (List Char) :=
  match dropPrefixCI "Invoice".data cs with
  | none => none
  | some r1 =>
    match wsThen '#' r1 with
    | none => none
    | some r2 =>
      match wsNewline r2 with
      | none => none
      | some r3 =>
        let cap := r3.takeWhile isAlnumC
        if cap.isEmpty then none else some cap

def cmInvoiceNumber (text : List Char) : List Char :=
  (searchFirst cmTryInvoiceAt text).getD []

/-- Attempt `Invoice Date\s*\n\s*([0-9/]+)` at the head. -/
def cmTryDateAt (cs : List Char) : Option (List Char) :=
  match dropPrefixC "Invoice Date".data cs with
  | none => none
  | some r1 =>
    match wsNewline r1 with
    | none => none
    | some r2 =>
      let cap := r2.takeWhile (fun c => isDigitC c || c == '/')
      if cap.isEmpty then none else some cap

def cmDate (text : List Char) : List Char :=
  (searchFirst cmTryDateAt text).getD []

def cmSkipPrefixes : List (List Char) :=
  ["job #", "bill of lading", "shipped via", "invoice#", "invoice #",
   "invoice", "date ordered", "date shipped"].map String.data

/-- `DATE_RE = ^[0-9]{1,2}/[0-9]{1,2}/[0-9]{2,4}$`. -/
def cmIsDate (cs : List Char) : Bool :=
  let (d1, r1) := splitDigits cs
  match 1 ≤ d1.length && d1.length ≤ 2, r1 with
  | true, '/' :: t1 =>
    let (d2, r2) := splitDigits t1
    match 1 ≤ d2.length && d2.length ≤ 2, r2 with
    | true, '/' :: t2 =>
      let (d3, r3) := splitDigits t2
      2 ≤ d3.length && d3.length ≤ 4 && r3.isEmpty
    | _, _ => false
  | _, _ => false

/-- `re.match(r"^[A-Z0-9]{6,}$", nxt)`. -/
def cmIsCode (cs : List Char) : Bool :=
  6 ≤ cs.length && cs.all (fun c => isDigitC c || isUpperC c)

def cmJobMarkers : List (List Char) :=
  ["job #", "job#", "job no", "job number"].map String.data

/-- Candidate filter shared by the primary jobname loop and PATCH 3 (`extraMarkers`
adds PATCH 3's literal job-marker skips). -/
def cmGoodCandidate (extraMarkers : Bool) (nxt : List Char) : Bool :=
  let low := lowerL nxt
  !(cmSkipPrefixes.any (fun p => isPrefixC p low)) && !cmIsDate nxt && !cmIsCode nxt
    && (!extraMarkers || !(cmJobMarkers.contains low))

/-- PATCH 3 of `parse_invoice` (core_main_parser.py): for each standalone
`job name` line, take the first good candidate after it. -/
def cmPatch3 : List (List Char) → List Char
  | [] => "UNKNOWN".data
  | ln :: rest =>
    if lowerL ln == "job name".data then
      match rest.find? (cmGoodCandidate true) with
      | some j => j
      | none => cmPatch3 rest
    else cmPatch3 rest

/-- Jobname logic of `parse_invoice` (core_main_parser.py): primary anchor is the
first line containing both `customer po #` and `job name`; when that leaves
`UNKNOWN`, PATCH 3 runs. -/
def cmJobname (lines : List (List Char)) : List Char :=
  let j1 : List Char :=
    match findIdxO (fun ln =>
        isInfixC "customer po #".data (lowerL ln) && isInfixC "job name".data (lowerL ln)) lines with
    | some idx =>
      match (lines.drop (idx + 1)).find? (cmGoodCandidate false) with
      | some j => j
      | none => "UNKNOWN".data
    | none => "UNKNOWN".data
  if j1 == "UNKNOWN".data then cmPatch3 lines else j1

/-- One page record of `parse_invoice` (core_main_parser.py). -/
def cmParsePage (text : List Char) (page_number : Nat) : InvoicePageRec :=
  { vendor := "Core & Main".data
    invoice_number := cmInvoiceNumber text
    jobname := cmJobname (cleanLines text)
    date := cmDate text
    total := cmTotal text
    raw_text := text
    page := page_number }

/-! ## Vendor dispatch (invoice_sorter_ui.py) -/

def VENDOR_ALIASES : List (List Char × List Char) :=
  [("knife river".data, "knife_river_parser".data),
   ("core & main".data, "core_main_parser".data)]

def lookupAlias (k : List Char) : Option (List Char) :=
  (VENDOR_ALIASES.find? (fun p => p.1 == k)).map (fun p => p.2)

/-- `derive_vendor_module` (invoice_sorter_ui.py): exact alias match on the
lowercased, stripped folder name; otherwise every non-alphanumeric character becomes
`_`, runs of `_` collapse, and `_parser` is appended. -/
def deriveVendorModule (folder : List Char) : List Char :=
  let raw := stripChars (lowerL folder)
  match lookupAlias raw with
  | some m => m
  | none =>
    let cleaned := raw.map (fun ch => if isAlnumC ch then ch else '_')
    let collapsed :=
      List.intercalate ['_'] ((splitOnCharL '_' cleaned).filter (fun p => !p.isEmpty))
    collapsed ++ "_parser".data

/-- The normalization as the claim words it: lowercase, remove characters that are
neither alphanumeric nor space, collapse whitespace to single underscores.  Written
from the spec's words for comparison with `deriveVendorModule`. -/
def specNormalizeKey (k : List Char) : List Char :=
  let stripped := (lowerL k).filter (fun c => isAlnumC c || c == ' ')
  List.intercalate ['_'] ((splitOnCharL ' ' stripped).filter (fun p => !p.isEmpty))

/-- Module lookup: the derived module name either is registered (import succeeds) or
is not (`UnknownVendor`: `load_parsed_data` shows a parser error and yields no
records). -/
def dispatchVendor (registry : List (List Char)) (folder : List Char) :
    Option (List Char) :=
  let m := deriveVendorModule folder
  if registry.contains m then some m else none

/-- `load_parsed_data` (invoice_sorter_ui.py) reduced to its record flow: `none`
means the parser import failed and no records are produced; there is no default
rule set to fall back to. -/
def loadParsedRecords {α : Type} (registry : List (List Char))
    (runParser : List Char → List α) (folder : List Char) : Option (List α) :=
  (dispatchVendor registry folder).map runParser

/-! ## vender_parser_wizard.py : the generated parser's `parse_invoice` -/

structure WizardFields where
  vendor : List Char → List Char
  invoice_number : List Char → List Char
  jobname : List Char → List Char
  date : List Char → List Char
  total : List Char → List Char
  work_number : List Char → List Char

structure WizRec where
  vendor : List Char
  invoice_number : List Char
  jobname : List Char
  date : List Char
  total : List Char
  work_number : List Char
  page : Nat
deriving DecidableEq

/-- Result type of the generated `parse_invoice`: a bare record for a one-page
document, a list otherwise (`return results[0] if len(results) == 1 else results`). -/
inductive WizResult where
  | single : WizRec → WizResult
  | multi : List WizRec → WizResult
deriving DecidableEq

def wizardDetectPage (d : WizardFields) (i : Nat) (text : List Char) : WizRec :=
  { vendor := d.vendor text
    invoice_number := d.invoice_number text
    jobname := d.jobname text
    date := d.date text
    total := d.total text
    work_number := d.work_number text
    page := i + 1 }

/-- `parse_invoice` as generated by `generate_parser_code`
(vender_parser_wizard.py). -/
def wizardParseInvoice (d : WizardFields) (pages : List (List Char)) : WizResult :=
  let results := pages.enum.map (fun p => wizardDetectPage d p.1 p.2)
  match results with
  | [r] => WizResult.single r
  | rs => WizResult.multi rs

/-- The detectors generated when no pattern was set in the wizard: every
`detect_*` returns the empty string (the vendor literal defaults to empty too). -/
def wizardEmptyFields : WizardFields :=
  { vendor := fun _ => []
    invoice_number := fun _ => []
    jobname := fun _ => []
    date := fun _ => []
    total := fun _ => []
    work_number := fun _ => [] }

/-! ## Predicates used by the theorems -/

/-- The `total` invariant: only digit characters and exactly one decimal point. -/
def isTotalShape (t : List Char) : Bool :=
  t.all (fun c => isDigitC c || c == '.') && t.count '.' == 1

/-- Invariant of the `extract_item_blocks` fold: every emitted block re-validates,
and an open buffer always starts with its window-start (ticket) line. -/
def krInv (st : KRState) : Prop :=
  (∀ b ∈ st.blocks, krValidBlock b = true ∧ krIsTicketStart (b.headD []) = true)
    ∧ ∀ c cs, st.current = c :: cs → krIsTicketStart c = true

/-! ## Helper lemmas -/

theorem findIdxO_lt {α : Type} (p : α → Bool) :
    ∀ (l : List α) (i : Nat), findIdxO p l = some i → i < l.length := by
  intro l
  induction l with
  | nil => intro i h; simp [findIdxO] at h
  | cons x xs ih =>
    intro i h
    unfold findIdxO at h
    by_cases hp : p x
    · rw [if_pos hp] at h
      cases h
      simp
    · rw [if_neg hp] at h
      rcases Option.map_eq_some'.mp h with ⟨j, hj, hji⟩
      have := ih j hj
      simp only [List.length_cons]
      omega

theorem pyGet_isSome {α : Type} (l : List α) (i : Nat) (h : i < l.length) :
    (pyGet l i).isSome = true := by
  unfold pyGet
  rw [List.get?_eq_get h]
  rfl

theorem ratOfDecimal_val (cs d t : List Char) (n m k : Nat)
    (h2 : (splitDigits cs).2 = '.' :: t) (h1 : (splitDigits cs).1 = d)
    (hn : natOfDigits d = n) (hm : natOfDigits (t.takeWhile isDigitC) = m)
    (hk : (t.takeWhile isDigitC).length = k) :
    ratOfDecimal cs = (n : ℚ) + (m : ℚ) / 10 ^ k := by
  unfold ratOfDecimal
  rw [h2, h1, hn]
  show (n : ℚ) + (natOfDigits (t.takeWhile isDigitC) : ℚ) / 10 ^ (t.takeWhile isDigitC).length = _
  rw [hm, hk]

/-! ## C6 -/

/-- C6: on the 6-slot Knife River vendor, the input lines
`123456 / Base Rock / ABC1 / 12.50 TN / 9.82 / 122.75` yield exactly one line
item with ticket `123456`, truck `ABC1`, quantity `12.50`, unit price `9.82` and
extended price `122.75`; replacing the truck code with `AB1` yields zero items. -/
theorem c6_knife_scenario :
    extract_item_blocks "123456\nBase Rock\nABC1\n12.50 TN\n9.82\n122.75".data
        = [["123456".data, "Base Rock".data, "ABC1".data, "12.50 TN".data,
            "9.82".data, "122.75".data]]
      ∧ parse_block ["123456".data, "Base Rock".data, "ABC1".data, "12.50 TN".data,
            "9.82".data, "122.75".data] none
        = some { job_name := none, ticket := "123456".data,
                 description := "Base Rock".data, truck := "ABC1".data,
                 quantity_tons := 12.50, unit_price := 9.82,
                 extended_price := 122.75 }
      ∧ extract_item_blocks "123456\nBase Rock\nAB1\n12.50 TN\n9.82\n122.75".data = [] := by
  refine ⟨by decide, ?_, by decide⟩
  have e1 : stripChars (removeTN "12.50 TN".data) = ['1', '2', '.', '5', '0'] := by decide
  have q1 : ratOfDecimal ['1', '2', '.', '5', '0'] = 12.50 := by
    rw [ratOfDecimal_val _ ['1', '2'] ['5', '0'] 12 50 2 (by decide) (by decide)
      (by decide) (by decide) (by decide)]
    norm_num
  have q2 : ratOfDecimal "9.82".data = 9.82 := by
    rw [ratOfDecimal_val _ ['9'] ['8', '2'] 9 82 2 (by decide) (by decide)
      (by decide) (by decide) (by decide)]
    norm_num
  have q3 : ratOfDecimal "122.75".data = 122.75 := by
    rw [ratOfDecimal_val _ ['1', '2', '2'] ['7', '5'] 122 75 2 (by decide) (by decide)
      (by decide) (by decide) (by decide)]
    norm_num
  have hpb : parse_block ["123456".data, "Base Rock".data, "ABC1".data, "12.50 TN".data,
      "9.82".data, "122.75".data] none
      = some { job_name := none, ticket := "123456".data,
               description := "Base Rock".data, truck := "ABC1".data,
               quantity_tons := ratOfDecimal (stripChars (removeTN "12.50 TN".data)),
               unit_price := ratOfDecimal "9.82".data,
               extended_price := ratOfDecimal "122.75".data } := rfl
  rw [hpb, e1, q1, q2, q3]

/-! ## C7 -/

/-- C7 (amended, Knife River side): in `extract_item_blocks`, a non-noise line
matching the window-start predicate always resets accumulation: whatever the current
buffer, the new buffer is exactly that line. -/
theorem c7_knife_start_resets (st : KRState) (line : List Char)
    (hbad : krHasBadWord line = false) (hstart : krIsTicketStart line = true) :
    (krStep st line).current = [line] := by
  simp [krStep, hbad, hstart]

theorem c7_knife_start_resets_witness :
    krHasBadWord "940775".data = false
      ∧ krIsTicketStart "940775".data = true
      ∧ (krStep ⟨[], ["123456".data, "Base Rock".data]⟩ "940775".data).current
          = ["940775".data] :=
  ⟨by decide, by decide,
    c7_knife_start_resets ⟨[], ["123456".data, "Base Rock".data]⟩ "940775".data
      (by decide) (by decide)⟩

/-- C7 counterexample: in Farwest's `extract_line_items`, the line `641.34` matches
the vendor's window-start predicate (bare decimal number) yet, arriving while a
window that started at `65.31` is being accumulated, it does not reset accumulation:
it is consumed as the extended-price slot of that window, so the emitted item carries
quantity `65.31` and extended price `641.34`.  Had the start trigger reset
accumulation, no window could both start at `65.31` and contain `641.34` as a later
slot. -/
theorem c7_counterexample :
    isDecimalFull "641.34".data = true
      ∧ extract_line_items "65.31\n641.34\n10/1/2025\n3/4 Base\n9.82".data none none
        = [{ job_name := none, invoice_number := none, date := "10/1/2025".data,
             description := "3/4 Base".data, quantity_tons := 65.31,
             unit_price := 9.82, extended_price := 641.34 }] := by
  refine ⟨by decide, ?_⟩
  have q1 : ratOfDecimal "65.31".data = 65.31 := by
    rw [ratOfDecimal_val _ ['6', '5'] ['3', '1'] 65 31 2 (by decide) (by decide)
      (by decide) (by decide) (by decide)]
    norm_num
  have q2 : ratOfDecimal "9.82".data = 9.82 := by
    rw [ratOfDecimal_val _ ['9'] ['8', '2'] 9 82 2 (by decide) (by decide)
      (by decide) (by decide) (by decide)]
    norm_num
  have q3 : ratOfDecimal "641.34".data = 641.34 := by
    rw [ratOfDecimal_val _ ['6', '4', '1'] ['3', '4'] 641 34 2 (by decide) (by decide)
      (by decide) (by decide) (by decide)]
    norm_num
  have hfw : extract_line_items "65.31\n641.34\n10/1/2025\n3/4 Base\n9.82".data none none
      = [{ job_name := none, invoice_number := none, date := "10/1/2025".data,
           description := "3/4 Base".data, quantity_tons := ratOfDecimal "65.31".data,
           unit_price := ratOfDecimal "9.82".data,
           extended_price := ratOfDecimal "641.34".data }] := rfl
  rw [hfw, q1, q2, q3]

/-! ## C1 -/

/-- C1 counterexample: the claim describes the normalized retry key as the folder
name lowercased with non-alphanumeric/space characters *removed* and whitespace
collapsed to underscores, which for the unaliased key `a-b` gives `ab` (module
`ab_parser`).  The code instead *replaces* every non-alphanumeric character with an
underscore, deriving `a_b_parser`; with `a_b_parser` registered and `ab_parser` not,
dispatch succeeds on a key whose claimed lookup would fail with `UnknownVendor`. -/
theorem c1_counterexample :
    lookupAlias "a-b".data = none
      ∧ specNormalizeKey "a-b".data = "ab".data
      ∧ deriveVendorModule "a-b".data = "a_b_parser".data
      ∧ deriveVendorModule "a-b".data ≠ specNormalizeKey "a-b".data ++ "_parser".data
      ∧ dispatchVendor ["a_b_parser".data] "a-b".data = some "a_b_parser".data := by
  refine ⟨by decide, by decide, by decide, by decide, by decide⟩

/-- C1 (amended): for a folder key whose lowercased, stripped form has no exact
alias entry and whose cleaned module name (non-alphanumerics each replaced by `_`,
runs of `_` collapsed, `_parser` appended) is not registered, dispatch fails —
`load_parsed_data` yields no records and never falls back to a default rule set. -/
theorem c1_unknown_vendor {α : Type} (registry : List (List Char))
    (runParser : List Char → List α) (folder : List Char)
    (halias : lookupAlias (stripChars (lowerL folder)) = none)
    (hreg : registry.contains (deriveVendorModule folder) = false) :
    deriveVendorModule folder
        = List.intercalate ['_']
            (((splitOnCharL '_'
                ((stripChars (lowerL folder)).map
                  (fun ch => if isAlnumC ch then ch else '_')))).filter
              (fun p => !p.isEmpty)) ++ "_parser".data
      ∧ loadParsedRecords registry runParser folder = none := by
  constructor
  · simp only [deriveVendorModule]
    rw [halias]
  · have hd : dispatchVendor registry folder = none := by
      simp only [dispatchVendor]
      rw [hreg]
      rfl
    simp only [loadParsedRecords, hd, Option.map_none']

theorem c1_unknown_vendor_witness :
    lookupAlias (stripChars (lowerL "Far west Rock!".data)) = none
      ∧ (["knife_river_parser".data, "core_main_parser".data] :
          List (List Char)).contains (deriveVendorModule "Far west Rock!".data) = false
      ∧ loadParsedRecords ["knife_river_parser".data, "core_main_parser".data]
          (fun _ => ([] : List InvoicePageRec)) "Far west Rock!".data = none :=
  ⟨by decide, by decide,
    (c1_unknown_vendor ["knife_river_parser".data, "core_main_parser".data]
      (fun _ => ([] : List InvoicePageRec)) "Far west Rock!".data
      (by decide) (by decide)).2⟩

/-! ## C3 -/

/-- C3 counterexample: in the Core & Main jobname rule the label line
`Customer PO # Job Name` is found, and the only nearby candidate
(`Invoice # 999`) is in the skip-word list, so no candidate qualifies; the rule
then produces the non-empty sentinel `UNKNOWN` — not the empty string the claim
requires. -/
theorem c3_counterexample :
    cmJobname (["Customer PO # Job Name".data, "Invoice # 999".data]) = "UNKNOWN".data
      ∧ (cmParsePage "Customer PO # Job Name\nInvoice # 999".data 1).jobname
          = "UNKNOWN".data
      ∧ "UNKNOWN".data ≠ ([] : List Char) := by
  refine ⟨by decide, by decide, by decide⟩

/-- C3 (amended, Knife River side): when the `ORIGINAL` label line is found and
both nearby candidates fail to qualify (empty or in the skip-word list), the
Knife River jobname rule returns the empty string, a valid outcome distinct from
rule inapplicability. -/
theorem c3_amended (lines : List (List Char)) (idx : Nat) (c1 c2 : List Char)
    (hidx : findIdxO (fun ln => upperL ln == "ORIGINAL".data) lines = some idx)
    (h1 : guardedGet lines (decide (1 ≤ idx)) (idx - 1) = some c1)
    (h2 : guardedGet lines (decide (2 ≤ idx)) (idx - 2) = some c2)
    (hb1 : c1 = [] ∨ krBadJobWords.contains (upperL c1) = true)
    (hb2 : c2 = [] ∨ krBadJobWords.contains (upperL c2) = true) :
    krJobnameM lines = some [] := by
  have e1 : (!c1.isEmpty && !(krBadJobWords.contains (upperL c1))) = false := by
    rcases hb1 with h | h
    · subst h; rfl
    · rw [h]; simp
  have e2 : (!c2.isEmpty && !(krBadJobWords.contains (upperL c2))) = false := by
    rcases hb2 with h | h
    · subst h; rfl
    · rw [h]; simp
  unfold krJobnameM
  rw [hidx]
  show krJobnameAt lines idx = some []
  unfold krJobnameAt
  rw [h1, h2]
  show some (if (!c1.isEmpty && !(krBadJobWords.contains (upperL c1))) = true then c1
    else if (!c2.isEmpty && !(krBadJobWords.contains (upperL c2))) = true then c2
    else []) = some []
  rw [e1, e2]
  simp

theorem c3_amended_witness :
    krJobnameM ["SUBTOTAL".data, "ORIGINAL".data] = some [] :=
  c3_amended ["SUBTOTAL".data, "ORIGINAL".data] 1 "SUBTOTAL".data []
    (by decide) (by decide) (by decide) (Or.inr (by decide)) (Or.inl rfl)

/-! ## C4 -/

theorem parseKnifeRiverPageM_page (t : List Char) (p : Nat) (r : InvoicePageRec)
    (h : parseKnifeRiverPageM t p = some r) : r.page = p := by
  unfold parseKnifeRiverPageM at h
  rcases hj : krJobnameM (cleanLines t) with _ | j
  · rw [hj] at h
    cases h
  · rw [hj] at h
    cases h
    rfl

theorem knifeParseGo_spec :
    ∀ (ts : List (List Char)) (i : Nat) (rs : List InvoicePageRec),
      knifeParseGo i ts = some rs →
        rs.length = ts.length
          ∧ ∀ (k : Nat) (hk : k < rs.length), (rs.get ⟨k, hk⟩).page = i + k + 1 := by
  intro ts
  induction ts with
  | nil =>
    intro i rs h
    unfold knifeParseGo at h
    cases h
    exact ⟨rfl, by intro k hk; simp at hk⟩
  | cons t ts ih =>
    intro i rs h
    unfold knifeParseGo at h
    rcases hp : parseKnifeRiverPageM t (i + 1) with _ | r
    · rw [hp] at h; cases h
    · rw [hp] at h
      rcases hg : knifeParseGo (i + 1) ts with _ | rs2
      · rw [hg] at h; cases h
      · rw [hg] at h
        cases h
        obtain ⟨hlen, hpages⟩ := ih (i + 1) rs2 hg
        refine ⟨by simp [hlen], ?_⟩
        intro k hk
        cases k with
        | zero => simpa using parseKnifeRiverPageM_page t (i + 1) r hp
        | succ k2 =>
          have hk2 : k2 < rs2.length := by
            simp only [List.length_cons] at hk
            omega
          have := hpages k2 hk2
          simp only [List.get]
          rw [this]
          omega

/-- C4 (amended, hand-written parser side): `parse_invoice` of
knife_river_parser.py returns one record per page in page order — the record at
position `i` carries page index `i + 1` — and returns a list even when there is
exactly one page. -/
theorem c4_amended (pages : List (List Char)) (recs : List InvoicePageRec)
    (h : knifeParseInvoice pages = some recs) :
    recs.length = pages.length
      ∧ ∀ (i : Nat) (hi : i < recs.length), (recs.get ⟨i, hi⟩).page = i + 1 := by
  obtain ⟨hl, hp⟩ := knifeParseGo_spec pages 0 recs h
  refine ⟨hl, ?_⟩
  intro i hi
  simpa using hp i hi

theorem c4_amended_witness :
    knifeParseInvoice ["ORIGINAL".data]
        = some [⟨"Knife River".data, [], [], [], [], "ORIGINAL".data, 1⟩]
      ∧ ([(⟨"Knife River".data, [], [], [], [], "ORIGINAL".data, 1⟩ : InvoicePageRec)]).length
          = ["ORIGINAL".data].length
      ∧ (⟨"Knife River".data, [], [], [], [], "ORIGINAL".data, 1⟩ : InvoicePageRec).page
          = 0 + 1 := by
  have h : knifeParseInvoice ["ORIGINAL".data]
      = some [⟨"Knife River".data, [], [], [], [], "ORIGINAL".data, 1⟩] := by
    decide
  have spec := c4_amended ["ORIGINAL".data] _ h
  exact ⟨h, spec.1, spec.2 0 (by decide)⟩

/-- C4 counterexample: the `parse_invoice` generated by the vendor-parser wizard
ends with `return results[0] if len(results) == 1 else results`, so for a
one-page document it unwraps the singleton to a bare scalar record instead of
returning a sequence. -/
theorem c4_counterexample :
    wizardParseInvoice wizardEmptyFields ["page one text".data]
      = WizResult.single ⟨[], [], [], [], [], [], 1⟩ := by
  decide

/-! ## C2 -/

theorem krStep_inv (st : KRState) (line : List Char) (h : krInv st) :
    krInv (krStep st line) := by
  obtain ⟨hb, hc⟩ := h
  unfold krStep
  by_cases h1 : krHasBadWord line = true
  · rw [if_pos h1]
    exact ⟨hb, hc⟩
  · rw [if_neg h1]
    by_cases h2 : krIsTicketStart line = true
    · rw [if_pos h2]
      refine ⟨hb, ?_⟩
      intro c cs hcc
      simp only at hcc
      cases hcc
      exact h2
    · rw [if_neg h2]
      rcases hcur : st.current with _ | ⟨c, cs⟩
      · exact ⟨hb, hc⟩
      · show krInv (if ((c :: cs) ++ [line]).length = 6 then _ else _)
        have hhead : krIsTicketStart c = true := hc c cs hcur
        by_cases h6 : ((c :: cs) ++ [line]).length = 6
        · rw [if_pos h6]
          by_cases hv : krValidBlock ((c :: cs) ++ [line]) = true
          · rw [if_pos hv]
            refine ⟨?_, fun a as ha => by cases ha⟩
            intro b hbmem
            rcases List.mem_append.mp hbmem with hold | hnew
            · exact hb b hold
            · rcases List.mem_singleton.mp hnew with rfl
              exact ⟨hv, hhead⟩
          · rw [if_neg hv]
            exact ⟨hb, fun a as ha => by cases ha⟩
        · rw [if_neg h6]
          refine ⟨hb, ?_⟩
          intro a as ha
          simp only at ha
          rw [List.cons_append] at ha
          cases ha
          exact hhead

theorem krFold_inv :
    ∀ (lines : List (List Char)) (st : KRState), krInv st →
      krInv (lines.foldl krStep st) := by
  intro lines
  induction lines with
  | nil => intro st h; exact h
  | cons l ls ih =>
    intro st h
    exact ih (krStep st l) (krStep_inv st l h)

/-- C2 (amended, Knife River side): every block emitted by `extract_item_blocks`
re-validates — its truck, quantity, unit-price and extended-price slots pass their
pattern-primitive validators and its first slot passes the window-start (ticket)
predicate. -/
theorem c2_amended (lines : List (List Char)) (b : List (List Char))
    (hb : b ∈ krRunBlocks lines) :
    krValidBlock b = true ∧ krIsTicketStart (b.headD []) = true := by
  have hinv : krInv (⟨[], []⟩ : KRState) := by
    constructor
    · intro b hb2
      cases hb2
    · intro c cs h
      cases h
  exact (krFold_inv lines ⟨[], []⟩ hinv).1 b hb

theorem c2_amended_witness :
    (["123456".data, "Base Rock".data, "ABC1".data, "12.50 TN".data,
        "9.82".data, "122.75".data]
      ∈ krRunBlocks ["123456".data, "Base Rock".data, "ABC1".data, "12.50 TN".data,
          "9.82".data, "122.75".data])
      ∧ krValidBlock ["123456".data, "Base Rock".data, "ABC1".data, "12.50 TN".data,
          "9.82".data, "122.75".data] = true
      ∧ krIsTicketStart (["123456".data, "Base Rock".data, "ABC1".data,
          "12.50 TN".data, "9.82".data, "122.75".data].headD []) = true := by
  constructor
  · decide
  exact c2_amended ["123456".data, "Base Rock".data, "ABC1".data, "12.50 TN".data,
    "9.82".data, "122.75".data]
    ["123456".data, "Base Rock".data, "ABC1".data, "12.50 TN".data,
      "9.82".data, "122.75".data] (by decide)

/-- C2 counterexample: Farwest's `extract_line_items` emits a window whose
unit-price slot `XX` fails its validator (`isDecimalFull`), coercing the value to
the default `0.0` instead of discarding the window — so re-validating the source
slots of this emitted item does not return true for all slots. -/
theorem c2_counterexample :
    extract_line_items "65.31\n641.34\n10/1/2025\n3/4 Base\nXX".data none none
      = [{ job_name := none, invoice_number := none, date := "10/1/2025".data,
           description := "3/4 Base".data, quantity_tons := 65.31,
           unit_price := 0, extended_price := 641.34 }]
      ∧ isDecimalFull "XX".data = false := by
  refine ⟨?_, by decide⟩
  have q1 : ratOfDecimal "65.31".data = 65.31 := by
    rw [ratOfDecimal_val _ ['6', '5'] ['3', '1'] 65 31 2 (by decide) (by decide)
      (by decide) (by decide) (by decide)]
    norm_num
  have q3 : ratOfDecimal "641.34".data = 641.34 := by
    rw [ratOfDecimal_val _ ['6', '4', '1'] ['3', '4'] 641 34 2 (by decide) (by decide)
      (by decide) (by decide) (by decide)]
    norm_num
  have hfw : extract_line_items "65.31\n641.34\n10/1/2025\n3/4 Base\nXX".data none none
      = [{ job_name := none, invoice_number := none, date := "10/1/2025".data,
           description := "3/4 Base".data, quantity_tons := ratOfDecimal "65.31".data,
           unit_price := 0, extended_price := ratOfDecimal "641.34".data }] := rfl
  rw [hfw, q1, q3]

/-! ## C8 -/

theorem guardedGet_isSome (lines : List (List Char)) (b : Bool) (i : Nat)
    (h : b = true → i < lines.length) : (guardedGet lines b i).isSome = true := by
  cases b with
  | false => rfl
  | true =>
    unfold guardedGet
    rw [if_pos rfl]
    exact pyGet_isSome lines i (h rfl)

theorem krJobnameAt_isSome (lines : List (List Char)) (idx : Nat)
    (h : idx < lines.length) : (krJobnameAt lines idx).isSome = true := by
  have g1 := guardedGet_isSome lines (decide (1 ≤ idx)) (idx - 1) (fun _ => by omega)
  have g2 := guardedGet_isSome lines (decide (2 ≤ idx)) (idx - 2) (fun _ => by omega)
  unfold krJobnameAt
  rcases h1 : guardedGet lines (decide (1 ≤ idx)) (idx - 1) with _ | c1
  · rw [h1] at g1
    cases g1
  · rcases h2 : guardedGet lines (decide (2 ≤ idx)) (idx - 2) with _ | c2
    · rw [h2] at g2
      cases g2
    · rfl

theorem krJobnameM_isSome (lines : List (List Char)) :
    (krJobnameM lines).isSome = true := by
  unfold krJobnameM
  rcases h : findIdxO (fun ln => upperL ln == "ORIGINAL".data) lines with _ | idx
  · rfl
  · exact krJobnameAt_isSome lines idx (findIdxO_lt _ lines idx h)

theorem parseKnifeRiverPageM_isSome (raw_text : List Char) (page : Nat) :
    (parseKnifeRiverPageM raw_text page).isSome = true := by
  unfold parseKnifeRiverPageM
  rcases h : krJobnameM (cleanLines raw_text) with _ | j
  · have := krJobnameM_isSome (cleanLines raw_text)
    rw [h] at this
    cases this
  · rfl

theorem idxRange_lt :
    ∀ (count start j : Nat), j ∈ idxRange start count →
      start ≤ j ∧ j < start + count := by
  intro count
  induction count with
  | zero => intro start j h; cases h
  | succ n ih =>
    intro start j h
    unfold idxRange at h
    rcases List.mem_cons.mp h with rfl | h2
    · omega
    · have := ih (start + 1) j h2
      omega

theorem moScanAfterSig_isSome (lines : List (List Char)) :
    ∀ (idxs : List Nat), (∀ j ∈ idxs, j < lines.length) →
      (moScanAfterSig lines idxs).isSome = true := by
  intro idxs
  induction idxs with
  | nil => intro _; rfl
  | cons j rest ih =>
    intro h
    have hj : j < lines.length := h j (List.mem_cons_self j rest)
    unfold moScanAfterSig
    rcases hg : pyGet lines j with _ | ln
    · have := pyGet_isSome lines j hj
      rw [hg] at this
      cases this
    · show (if isDigits67 ln = true then some (some ln)
          else moScanAfterSig lines rest).isSome = true
      by_cases hd : isDigits67 ln = true
      · rw [if_pos hd]
        rfl
      · rw [if_neg hd]
        exact ih (fun k hk => h k (List.mem_cons_of_mem j hk))

theorem moStage1_isSome (lines : List (List Char)) :
    ∀ (pairs : List (Nat × List Char)), (moStage1 lines pairs).isSome = true := by
  intro pairs
  induction pairs with
  | nil => rfl
  | cons p rest ih =>
    obtain ⟨i, ln⟩ := p
    unfold moStage1
    by_cases hs : isInfixC "SIGNATURE".data (upperL ln) = true
    · rw [if_pos hs]
      have hscan : (moScanAfterSig lines
          (idxRange (i + 1) (min (i + 5) lines.length - (i + 1)))).isSome = true := by
        refine moScanAfterSig_isSome lines _ ?_
        intro j hj
        have h1 := idxRange_lt (min (i + 5) lines.length - (i + 1)) (i + 1) j hj
        omega
      rcases hr : moScanAfterSig lines
          (idxRange (i + 1) (min (i + 5) lines.length - (i + 1))) with _ | v
      · rw [hr] at hscan
        cases hscan
      · rcases v with _ | w
        · exact ih
        · rfl
    · rw [if_neg hs]
      exact ih

theorem moInvoiceNumberM_isSome (raw_text : List Char) :
    (moInvoiceNumberM raw_text).isSome = true := by
  unfold moInvoiceNumberM
  rcases h : moStage1 (cleanLines raw_text) (cleanLines raw_text).enum with _ | v
  · have := moStage1_isSome (cleanLines raw_text) (cleanLines raw_text).enum
    rw [h] at this
    cases this
  · rcases v with _ | w
    · show (match (cleanLines raw_text).find? isDigits67 with
        | some v => some v
        | none => some ((searchDigits67 none raw_text).getD [])).isSome = true
      rcases (cleanLines raw_text).find? isDigits67 with _ | u
      · rfl
      · rfl
    · rfl

/-- C8: the embedded field-extraction rules are total on every page text: with
Python list subscripts modelled as raising (`Option`), the Missoula Landfill
invoice-number extractor and the whole Knife River page parser (invoice number,
date, total and the label-relative jobname rule with its bounds-guarded line
accesses) always return a result and never raise. -/
theorem c8_field_rules_total (raw_text : List Char) (page : Nat) :
    (moInvoiceNumberM raw_text).isSome = true
      ∧ (parseKnifeRiverPageM raw_text page).isSome = true :=
  ⟨moInvoiceNumberM_isSome raw_text, parseKnifeRiverPageM_isSome raw_text page⟩

/-! ## C10 -/

theorem takeWhile_all (p : Char → Bool) (cs : List Char) :
    (cs.takeWhile p).all p = true :=
  List.all_eq_true.mpr (fun _ hc => List.mem_takeWhile_imp hc)

theorem tryDigits67_shape (cs m : List Char) (h : tryDigits67 cs = some m) :
    isDigits67 m = true := by
  unfold tryDigits67 at h
  split at h
  · next hcond =>
    cases h
    rcases (Bool.and_eq_true _ _).mp hcond with ⟨hlen, _⟩
    unfold isDigits67
    refine (Bool.and_eq_true _ _).mpr ⟨hlen, ?_⟩
    show ((splitDigits cs).1.all isDigitC) = true
    unfold splitDigits
    exact takeWhile_all isDigitC cs
  · cases h

theorem searchDigits67_shape :
    ∀ (cs : List Char) (prev : Option Char) (m : List Char),
      searchDigits67 prev cs = some m → isDigits67 m = true := by
  intro cs
  induction cs with
  | nil => intro prev m h; cases h
  | cons c rest ih =>
    intro prev m h
    unfold searchDigits67 at h
    split at h
    · next heq =>
      cases h
      split at heq
      · exact tryDigits67_shape _ _ heq
      · cases heq
    · exact ih (some c) m h

theorem moScanAfterSig_digits (lines : List (List Char)) :
    ∀ (idxs : List Nat) (v : List Char),
      moScanAfterSig lines idxs = some (some v) → isDigits67 v = true := by
  intro idxs
  induction idxs with
  | nil =>
    intro v h
    simp [moScanAfterSig] at h
  | cons j rest ih =>
    intro v h
    unfold moScanAfterSig at h
    split at h
    · cases h
    · next ln _ =>
      split at h
      · next hd =>
        cases h
        exact hd
      · exact ih v h

theorem moStage1_digits (lines : List (List Char)) :
    ∀ (pairs : List (Nat × List Char)) (v : List Char),
      moStage1 lines pairs = some (some v) → isDigits67 v = true := by
  intro pairs
  induction pairs with
  | nil =>
    intro v h
    simp [moStage1] at h
  | cons p rest ih =>
    obtain ⟨i, ln⟩ := p
    intro v h
    unfold moStage1 at h
    split at h
    · split at h
      · cases h
      · next w heq =>
        cases h
        exact moScanAfterSig_digits lines _ _ heq
      · exact ih v h
    · exact ih v h

/-- C10: the invoice number produced by the Knife River page parser is empty or a
string of at least six digits; the one produced by the Missoula Landfill parser is
empty or a string of exactly six or seven digits.  Neither is ever a partial or
non-numeric token. -/
theorem c10_invoice_number_shape :
    (∀ (lines : List (List Char)), krInvoiceNumber lines ≠ [] →
        6 ≤ (krInvoiceNumber lines).length
          ∧ (krInvoiceNumber lines).all isDigitC = true)
      ∧ (∀ (raw_text v : List Char), moInvoiceNumberM raw_text = some v → v ≠ [] →
          ((v.length = 6 ∨ v.length = 7) ∧ v.all isDigitC = true)) := by
  constructor
  · intro lines hne
    unfold krInvoiceNumber at hne ⊢
    rcases hf : lines.find? isDigits6Plus with _ | u
    · rw [hf] at hne
      exact absurd rfl hne
    · simp only [Option.getD_some]
      have := List.find?_some hf
      unfold isDigits6Plus at this
      rcases (Bool.and_eq_true _ _).mp this with ⟨h1, h2⟩
      exact ⟨by simpa using of_decide_eq_true h1, h2⟩
  · intro raw_text v h hne
    have hshape : isDigits67 v = true ∨ v = [] := by
      unfold moInvoiceNumberM at h
      split at h
      · cases h
      · next w heq =>
        cases h
        exact Or.inl (moStage1_digits _ _ _ heq)
      · next heq =>
        split at h
        · next u heq2 =>
          cases h
          exact Or.inl (List.find?_some heq2)
        · cases h
          rcases hs : searchDigits67 none raw_text with _ | m
          · exact Or.inr rfl
          · refine Or.inl ?_
            simp only [Option.getD_some]
            exact searchDigits67_shape raw_text none m hs
    rcases hshape with hd | hempty
    · unfold isDigits67 at hd
      rcases (Bool.and_eq_true _ _).mp hd with ⟨h1, h2⟩
      refine ⟨?_, h2⟩
      rcases (Bool.or_eq_true _ _).mp h1 with h6 | h7
      · exact Or.inl (by simpa using of_decide_eq_true h6)
      · exact Or.inr (by simpa using of_decide_eq_true h7)
    · exact absurd hempty hne

theorem c10_invoice_number_shape_witness :
    (krInvoiceNumber ["968457".data] ≠ []
      ∧ 6 ≤ (krInvoiceNumber ["968457".data]).length
      ∧ (krInvoiceNumber ["968457".data]).all isDigitC = true)
      ∧ (moInvoiceNumberM "SIGNATURE\n1234567".data = some "1234567".data
          ∧ ("1234567".data.length = 6 ∨ "1234567".data.length = 7)
          ∧ "1234567".data.all isDigitC = true) := by
  constructor
  · have h := c10_invoice_number_shape.1 ["968457".data] (by decide)
    exact ⟨by decide, h.1, h.2⟩
  · have h := c10_invoice_number_shape.2 "SIGNATURE\n1234567".data "1234567".data
      (by decide) (by decide)
    exact ⟨by decide, h.1, h.2⟩

/-! ## C5 -/

theorem foldl_pickMax_of_le {α : Type} :
    ∀ (xs : List (Nat × α)) (x : Nat × α), (∀ y ∈ xs, y.1 ≤ x.1) →
      xs.foldl pickMax x = x := by
  intro xs
  induction xs with
  | nil => intro x _; rfl
  | cons y ys ih =>
    intro x h
    rw [List.foldl_cons]
    have hxy : pickMax x y = x := by
      unfold pickMax
      rw [if_neg (by have := h y (List.mem_cons_self y ys); omega)]
    rw [hxy]
    exact ih x (fun z hz => h z (List.mem_cons_of_mem y hz))

theorem le_maxVal {α : Type} : ∀ (l : List (Nat × α)) (p : Nat × α), p ∈ l →
    p.1 ≤ maxVal l := by
  intro l
  induction l with
  | nil => intro p h; cases h
  | cons x xs ih =>
    intro p h
    unfold maxVal
    rw [List.map_cons, List.foldr_cons]
    rcases List.mem_cons.mp h with rfl | h2
    · exact Nat.le_max_left _ _
    · have := ih p h2
      unfold maxVal at this
      omega

theorem foldl_pickMax_switch {α : Type} :
    ∀ (ys : List (Nat × α)) (x y : Nat × α), y.1 ≤ x.1 → x.1 < maxVal ys →
      ys.foldl pickMax x = ys.foldl pickMax y := by
  intro ys
  induction ys with
  | nil =>
    intro x y _ hlt
    unfold maxVal at hlt
    simp at hlt
  | cons z zs ih =>
    intro x y hyx hlt
    have hmax : maxVal (z :: zs) = max z.1 (maxVal zs) := by
      unfold maxVal
      rw [List.map_cons, List.foldr_cons]
    rw [List.foldl_cons, List.foldl_cons]
    by_cases hxz : x.1 < z.1
    · have h1 : pickMax x z = z := by unfold pickMax; rw [if_pos hxz]
      have h2 : pickMax y z = z := by unfold pickMax; rw [if_pos (by omega)]
      rw [h1, h2]
    · have h1 : pickMax x z = x := by unfold pickMax; rw [if_neg hxz]
      rw [h1]
      have hzx : z.1 ≤ x.1 := by omega
      have hlt2 : x.1 < maxVal zs := by rw [hmax] at hlt; omega
      by_cases hyz : y.1 < z.1
      · have h2 : pickMax y z = z := by unfold pickMax; rw [if_pos hyz]
        rw [h2]
        exact ih x z hzx hlt2
      · have h2 : pickMax y z = y := by unfold pickMax; rw [if_neg hyz]
        rw [h2]
        exact ih x y hyx hlt2

theorem foldl_pickMax_drop_head {α : Type} (x y : Nat × α) (ys : List (Nat × α))
    (hlt : x.1 < maxVal (y :: ys)) :
    (y :: ys).foldl pickMax x = ys.foldl pickMax y := by
  rw [List.foldl_cons]
  by_cases hxy : x.1 < y.1
  · rw [show pickMax x y = y from by unfold pickMax; rw [if_pos hxy]]
  · rw [show pickMax x y = x from by unfold pickMax; rw [if_neg hxy]]
    have hmax : maxVal (y :: ys) = max y.1 (maxVal ys) := by
      unfold maxVal
      rw [List.map_cons, List.foldr_cons]
    refine foldl_pickMax_switch ys x y (by omega) ?_
    rw [hmax] at hlt
    omega

theorem find?_maxVal {α : Type} :
    ∀ (xs : List (Nat × α)) (x : Nat × α),
      (x :: xs).find? (fun p => maxVal (x :: xs) ≤ p.1) = some (xs.foldl pickMax x) := by
  intro xs
  induction xs with
  | nil =>
    intro x
    have : (decide (maxVal [x] ≤ x.1)) = true := by
      apply decide_eq_true
      unfold maxVal
      simp
    rw [List.find?_cons, this]
    rfl
  | cons y ys ih =>
    intro x
    have hmax : maxVal (x :: y :: ys) = max x.1 (maxVal (y :: ys)) := by
      unfold maxVal
      rw [List.map_cons, List.foldr_cons]
    by_cases hx : maxVal (x :: y :: ys) ≤ x.1
    · rw [List.find?_cons, decide_eq_true hx]
      have hall : ∀ z ∈ y :: ys, z.1 ≤ x.1 := by
        intro z hz
        have := le_maxVal (y :: ys) z hz
        rw [hmax] at hx
        omega
      rw [foldl_pickMax_of_le (y :: ys) x hall]
    · rw [List.find?_cons]
      have hdec : (decide (maxVal (x :: y :: ys) ≤ x.1)) = false :=
        decide_eq_false hx
      rw [hdec]
      have hlt : x.1 < maxVal (y :: ys) := by rw [hmax] at hx; omega
      have hsame : maxVal (x :: y :: ys) = maxVal (y :: ys) := by
        rw [hmax]; omega
      rw [hsame, ih y]
      rw [foldl_pickMax_drop_head x y ys hlt]

theorem foldl_pickMax_filter {α : Type} :
    ∀ (xs : List (Nat × α)) (x : Nat × α),
      (xs.filter (fun p => 0 < p.1)).foldl pickMax x = xs.foldl pickMax x := by
  intro xs
  induction xs with
  | nil => intro x; rfl
  | cons z zs ih =>
    intro x
    by_cases hz : 0 < z.1
    · rw [List.filter_cons_of_pos (by exact decide_eq_true hz), List.foldl_cons,
        List.foldl_cons]
      exact ih (pickMax x z)
    · rw [List.filter_cons_of_neg (by simpa using hz), List.foldl_cons]
      rw [show pickMax x z = x from by unfold pickMax; rw [if_neg (by omega)]]
      exact ih x

theorem foldl_pickMax_zero_head {α : Type} :
    ∀ (ps : List (Nat × α)) (p q : Nat × α) (qs : List (Nat × α)), p.1 = 0 →
      ps.filter (fun z => 0 < z.1) = q :: qs →
      ps.foldl pickMax p = qs.foldl pickMax q := by
  intro ps
  induction ps with
  | nil =>
    intro p q qs _ hf
    cases hf
  | cons h t ih =>
    intro p q qs hp hf
    by_cases hh : 0 < h.1
    · rw [List.filter_cons_of_pos (by exact decide_eq_true hh)] at hf
      cases hf
      rw [List.foldl_cons]
      rw [show pickMax p h = h from by unfold pickMax; rw [if_pos (by omega)]]
      exact (foldl_pickMax_filter t h).symm
    · rw [List.filter_cons_of_neg (by simpa using hh)] at hf
      rw [List.foldl_cons]
      rw [show pickMax p h = p from by unfold pickMax; rw [if_neg (by omega)]]
      exact ih p q qs hp hf

theorem maxByFirstVal_chooseNonzero {α : Type} (l : List (Nat × α)) :
    maxByFirstVal (chooseNonzero l) = l.find? (fun p => maxVal l ≤ p.1) := by
  rcases l with _ | ⟨x, xs⟩
  · rfl
  · unfold chooseNonzero
    rw [find?_maxVal xs x]
    rcases hF : (x :: xs).filter (fun p => 0 < p.1) with _ | ⟨q, qs⟩
    · rw [hF]
      rfl
    · rw [hF]
      show some (qs.foldl pickMax q) = some (xs.foldl pickMax x)
      by_cases hx : 0 < x.1
      · rw [List.filter_cons_of_pos (by exact decide_eq_true hx)] at hF
        cases hF
        rw [foldl_pickMax_filter xs x]
      · rw [List.filter_cons_of_neg (by simpa using hx)] at hF
        rw [foldl_pickMax_zero_head xs x q qs (by omega) hF]

/-- C5: `_extract_missoula_total` refines the `MaxNumericMatch` rule as specified —
for every page text it returns the comma-free string form of the greatest monetary
value, ties broken by first occurrence, and the empty string with no candidates
(the non-zero pre-filter in the code never changes the outcome) — and on a page
containing `$10.00`, `$250.75` and `$90.00` it returns `250.75`. -/
theorem c5_max_numeric_match :
    (∀ raw_text : List Char, extractMissoulaTotal raw_text = specMaxNumericMatch raw_text)
      ∧ extractMissoulaTotal "Fee $10.00 due $250.75 paid $90.00".data = "250.75".data := by
  constructor
  · intro t
    unfold extractMissoulaTotal specMaxNumericMatch
    rw [maxByFirstVal_chooseNonzero (moParsed t)]
  · decide

/-! ## C9 -/

theorem takeCommaGroups_shape : ∀ (cs : List Char), ∀ c ∈ (takeCommaGroups cs).1,
    isDigitC c = true ∨ c = ',' := by
  intro cs
  induction cs using takeCommaGroups.induct with
  | case1 a b c rest hd ih =>
    intro x hx
    simp only [takeCommaGroups] at hx
    rw [if_pos hd] at hx
    simp only [List.mem_cons] at hx
    rcases hx with rfl | rfl | rfl | rfl | hx
    · exact Or.inr rfl
    · exact Or.inl (by simpa using List.all_eq_true.mp hd _ (by simp))
    · exact Or.inl (by simpa using List.all_eq_true.mp hd _ (by simp))
    · exact Or.inl (by simpa using List.all_eq_true.mp hd _ (by simp))
    · exact ih x hx
  | case2 a b c rest hd =>
    intro x hx
    simp only [takeCommaGroups] at hx
    rw [if_neg hd] at hx
    cases hx
  | case3 cs h =>
    intro x hx
    simp only [takeCommaGroups] at hx
    cases hx

theorem shape_of_parts (dc f : List Char)
    (hdc : ∀ c ∈ dc, isDigitC c = true ∨ c = ',')
    (hf : ∀ c ∈ f, isDigitC c = true) :
    isTotalShape ((dc ++ '.' :: f).filter (fun c => c ≠ ',')) = true := by
  unfold isTotalShape
  apply (Bool.and_eq_true _ _).mpr
  constructor
  · apply List.all_eq_true.mpr
    intro x hx
    rcases List.mem_filter.mp hx with ⟨hmem, hne⟩
    rcases List.mem_append.mp hmem with h1 | h2
    · rcases hdc x h1 with h | rfl
      · exact (Bool.or_eq_true _ _).mpr (Or.inl h)
      · exact absurd rfl (of_decide_eq_true hne)
    · rcases List.mem_cons.mp h2 with rfl | h3
      · exact (Bool.or_eq_true _ _).mpr (Or.inr (by decide))
      · exact (Bool.or_eq_true _ _).mpr (Or.inl (hf x h3))
  · apply beq_iff_eq.mpr
    rw [List.filter_append, List.count_append]
    have h0 : ((dc.filter (fun c => c ≠ ',')).count '.') = 0 := by
      apply List.count_eq_zero.mpr
      intro hmem
      rcases List.mem_filter.mp hmem with ⟨hmemdc, _⟩
      rcases hdc '.' hmemdc with h | h
      · exact absurd h (by decide)
      · exact absurd h (by decide)
    have hcons : (('.' :: f).filter (fun c => c ≠ ',')) =
        '.' :: f.filter (fun c => c ≠ ',') :=
      List.filter_cons_of_pos (by decide)
    have hf0 : ((f.filter (fun c => c ≠ ',')).count '.') = 0 := by
      apply List.count_eq_zero.mpr
      intro hmem
      rcases List.mem_filter.mp hmem with ⟨hmemf, _⟩
      exact absurd (hf '.' hmemf) (by decide)
    rw [h0, hcons, List.count_cons_self, hf0]

theorem tryMoneyB_shape (cs m r : List Char) (h : tryMoneyB cs = some (m, r)) :
    isTotalShape (m.filter (fun c => c ≠ ',')) = true := by
  unfold tryMoneyB at h
  split at h
  · cases h
  · split at h
    · next a b rt heq =>
      split at h
      · next hab =>
        cases h
        rcases (Bool.and_eq_true _ _).mp hab with ⟨hab1, _⟩
        rcases (Bool.and_eq_true _ _).mp hab1 with ⟨ha, hb⟩
        have hm : (splitDigits cs).1 ++ (takeCommaGroups (splitDigits cs).2).1
              ++ ['.', a, b]
            = ((splitDigits cs).1 ++ (takeCommaGroups (splitDigits cs).2).1)
              ++ '.' :: [a, b] := by
          simp [List.append_assoc]
        rw [hm]
        apply shape_of_parts
        · intro c hc
          rcases List.mem_append.mp hc with h1 | h2
          · exact Or.inl (List.mem_takeWhile_imp h1)
          · exact takeCommaGroups_shape (splitDigits cs).2 c h2
        · intro c hc
          rcases List.mem_cons.mp hc with rfl | hc2
          · exact ha
          · rcases List.mem_cons.mp hc2 with rfl | hc3
            · exact hb
            · cases hc3
      · cases h
    · cases h

theorem tryMoneyDollar_shape (cs m r : List Char)
    (h : tryMoneyDollar cs = some (m, r)) :
    isTotalShape (m.filter (fun c => c ≠ ',')) = true := by
  unfold tryMoneyDollar at h
  split at h
  · cases h
  · split at h
    · next a b rt heq =>
      split at h
      · next hab =>
        cases h
        rcases (Bool.and_eq_true _ _).mp hab with ⟨ha, hb⟩
        have hm : (splitDigits cs).1 ++ (takeCommaGroups (splitDigits cs).2).1
              ++ ['.', a, b]
            = ((splitDigits cs).1 ++ (takeCommaGroups (splitDigits cs).2).1)
              ++ '.' :: [a, b] := by
          simp [List.append_assoc]
        rw [hm]
        apply shape_of_parts
        · intro c hc
          rcases List.mem_append.mp hc with h1 | h2
          · exact Or.inl (List.mem_takeWhile_imp h1)
          · exact takeCommaGroups_shape (splitDigits cs).2 c h2
        · intro c hc
          rcases List.mem_cons.mp hc with rfl | hc2
          · exact ha
          · rcases List.mem_cons.mp hc2 with rfl | hc3
            · exact hb
            · cases hc3
      · cases h
    · cases h

theorem krMoneyScanF_shape :
    ∀ (fuel : Nat) (prev : Option Char) (cs m : List Char),
      m ∈ krMoneyScanF fuel prev cs →
      isTotalShape (m.filter (fun c => c ≠ ',')) = true := by
  intro fuel
  induction fuel with
  | zero =>
    intro prev cs m h
    simp [krMoneyScanF] at h
  | succ f ih =>
    intro prev cs m h
    cases cs with
    | nil => simp [krMoneyScanF] at h
    | cons c rest =>
      unfold krMoneyScanF at h
      split at h
      · next m0 r0 heq =>
        rcases List.mem_cons.mp h with rfl | h2
        · split at heq
          · exact tryMoneyB_shape _ _ _ heq
          · cases heq
        · exact ih _ _ _ h2
      · exact ih _ _ _ h

theorem krTotal_shape (t : List Char) (hne : krTotal t ≠ []) :
    isTotalShape (krTotal t) = true := by
  unfold krTotal at hne ⊢
  split at hne
  · next mm heq =>
    have hmem : mm ∈ krMoneyScan t :=
      List.mem_of_mem_getLast? (Option.mem_def.mpr heq)
    exact krMoneyScanF_shape _ _ _ mm hmem
  · exact absurd rfl hne

theorem parseKnifeRiverPageM_total (t : List Char) (p : Nat) (r : InvoicePageRec)
    (h : parseKnifeRiverPageM t p = some r) : r.total = krTotal t := by
  unfold parseKnifeRiverPageM at h
  split at h
  · cases h
  · cases h
    rfl

theorem moMoneyScanF_shape :
    ∀ (fuel : Nat) (cs m : List Char), m ∈ moMoneyScanF fuel cs →
      isTotalShape (m.filter (fun c => c ≠ ',')) = true := by
  intro fuel
  induction fuel with
  | zero =>
    intro cs m h
    simp [moMoneyScanF] at h
  | succ f ih =>
    intro cs m h
    cases cs with
    | nil => simp [moMoneyScanF] at h
    | cons c rest =>
      unfold moMoneyScanF at h
      split at h
      · split at h
        · next m0 r0 heq =>
          rcases List.mem_cons.mp h with rfl | h2
          · exact tryMoneyDollar_shape _ _ _ heq
          · exact ih _ _ h2
        · exact ih _ _ h
      · exact ih _ _ h

theorem foldl_pickMax_mem {α : Type} :
    ∀ (xs : List (Nat × α)) (x : Nat × α), xs.foldl pickMax x ∈ x :: xs := by
  intro xs
  induction xs with
  | nil =>
    intro x
    simp
  | cons y ys ih =>
    intro x
    rw [List.foldl_cons]
    rcases List.mem_cons.mp (ih (pickMax x y)) with heq | hmem
    · rw [heq]
      unfold pickMax
      by_cases hxy : x.1 < y.1
      · rw [if_pos hxy]
        exact List.mem_cons_of_mem x (List.mem_cons_self y ys)
      · rw [if_neg hxy]
        exact List.mem_cons_self x (y :: ys)
    · exact List.mem_cons_of_mem x (List.mem_cons_of_mem y hmem)

theorem maxByFirstVal_mem {α : Type} (l : List (Nat × α)) (p : Nat × α)
    (h : maxByFirstVal l = some p) : p ∈ l := by
  cases l with
  | nil => cases h
  | cons x xs =>
    unfold maxByFirstVal at h
    cases h
    exact foldl_pickMax_mem xs x

theorem chooseNonzero_sub {α : Type} (l : List (Nat × α)) (p : Nat × α)
    (h : p ∈ chooseNonzero l) : p ∈ l := by
  unfold chooseNonzero at h
  split at h
  · exact h
  · next q qs heq =>
    rw [← heq] at h
    exact List.mem_of_mem_filter h

theorem extractMissoulaTotal_shape (t : List Char)
    (hne : extractMissoulaTotal t ≠ []) :
    isTotalShape (extractMissoulaTotal t) = true := by
  unfold extractMissoulaTotal at hne ⊢
  split at hne
  · next p heq =>
    have hp : p ∈ moParsed t :=
      chooseNonzero_sub _ p (maxByFirstVal_mem _ p heq)
    rcases List.mem_map.mp hp with ⟨x, hx, hpx⟩
    have hx2 : p.2 = x := by rw [← hpx]
    rw [hx2]
    exact moMoneyScanF_shape _ _ x hx
  · exact absurd rfl hne

theorem searchAtF_prop {α : Type} (att : List Char → Option α) (P : α → Prop)
    (hatt : ∀ (cs : List Char) (a : α), att cs = some a → P a) :
    ∀ (fuel : Nat) (cs : List Char) (a : α), searchAtF att fuel cs = some a → P a := by
  intro fuel
  induction fuel with
  | zero =>
    intro cs a h
    simp [searchAtF] at h
  | succ f ih =>
    intro cs a h
    cases cs with
    | nil => simp [searchAtF] at h
    | cons c rest =>
      unfold searchAtF at h
      split at h
      · next m heq =>
        cases h
        exact hatt _ _ heq
      · exact ih rest a h

theorem cmCapture_shape (r2 cap : List Char) (h : cmCapture r2 = some cap) :
    isTotalShape (cap.filter (fun c => c ≠ ',')) = true := by
  unfold cmCapture at h
  split at h
  · cases h
  · split at h
    · next t =>
      split at h
      · cases h
      · cases h
        apply shape_of_parts
        · intro c hc
          have := List.mem_takeWhile_imp hc
          rcases (Bool.or_eq_true _ _).mp this with h1 | h2
          · exact Or.inl h1
          · exact Or.inr (by simpa using h2)
        · intro c hc
          exact List.mem_takeWhile_imp hc
    · cases h

theorem cmTryTotalAt_shape (cs cap : List Char) (h : cmTryTotalAt cs = some cap) :
    isTotalShape (cap.filter (fun c => c ≠ ',')) = true := by
  unfold cmTryTotalAt at h
  split at h
  · cases h
  · split at h
    · cases h
    · exact cmCapture_shape _ _ h

theorem cmTotal_shape (t : List Char) (hne : cmTotal t ≠ []) :
    isTotalShape (cmTotal t) = true := by
  unfold cmTotal at hne ⊢
  split at hne
  · next cap heq =>
    exact searchAtF_prop cmTryTotalAt
      (fun c => isTotalShape (c.filter (fun x => x ≠ ',')) = true)
      cmTryTotalAt_shape _ _ _ heq
  · exact absurd rfl hne

/-- C9: for every page parsed by the Knife River, Missoula Landfill or Core & Main
parser, the `total` field of the resulting record, whenever non-empty, contains
only digit characters and exactly one decimal point — thousands separators are
removed before the record is assembled. -/
theorem c9_total_shape :
    (∀ (text : List Char) (page : Nat) (r : InvoicePageRec),
        parseKnifeRiverPageM text page = some r → r.total ≠ [] →
          isTotalShape r.total = true)
      ∧ (∀ text : List Char, extractMissoulaTotal text ≠ [] →
          isTotalShape (extractMissoulaTotal text) = true)
      ∧ (∀ (text : List Char) (page : Nat), (cmParsePage text page).total ≠ [] →
          isTotalShape ((cmParsePage text page).total) = true) := by
  refine ⟨?_, extractMissoulaTotal_shape, ?_⟩
  · intro text page r h hne
    rw [parseKnifeRiverPageM_total text page r h] at hne ⊢
    exact krTotal_shape text hne
  · intro text page hne
    exact cmTotal_shape text hne

theorem c9_total_shape_witness :
    (parseKnifeRiverPageM "ORIGINAL\n1,025.28".data 1
        = some ⟨"Knife River".data, [], [], [], "1025.28".data,
            "ORIGINAL\n1,025.28".data, 1⟩
      ∧ "1025.28".data ≠ []
      ∧ isTotalShape ("1025.28".data) = true)
      ∧ (extractMissoulaTotal "$5.00".data ≠ []
        ∧ isTotalShape (extractMissoulaTotal "$5.00".data) = true)
      ∧ ((cmParsePage "Total Amount Due\n$4.20".data 1).total ≠ []
        ∧ isTotalShape ((cmParsePage "Total Amount Due\n$4.20".data 1).total) = true) := by
  refine ⟨⟨?_, ?_, ?_⟩, ⟨?_, ?_⟩, ⟨?_, ?_⟩⟩
  · decide
  · decide
  · exact c9_total_shape.1 "ORIGINAL\n1,025.28".data 1
      ⟨"Knife River".data, [], [], [], "1025.28".data, "ORIGINAL\n1,025.28".data, 1⟩
      (by decide) (by decide)
  · decide
  · exact c9_total_shape.2.1 "$5.00".data (by decide)
  · decide
  · exact c9_total_shape.2.2 "Total Amount Due\n$4.20".data 1 (by decide)

end Billdozer
